import Mathlib

/-!
Verification of the frame-accurate duration allocator and timeline gap-fix
pass of the auto-slideshow-creator extension.

The allocator `calculateRandomDurations` is embedded from the source
(`src/unnamed/part_002` lines 176-233 and `src/unnamed/part_003` lines
227-284, which are identical; the earlier revision in
`src/jsx/hostscript.jsx` lines 126-187 is embedded separately as
`calculateRandomDurationsSeconds`).  JavaScript numbers are modelled by
exact rationals; `Math.round` is `jround` (round half toward +infinity),
`Math.floor` of a quotient of integers is `Int.fdiv`.  The stream of
`Math.random()` results is modelled by a function `rand : Nat → Rat`,
read in call order; a legal draw satisfies `0 ≤ rand i < 1`.

The placement loop's integer tick cursor is `placementCursor`, and the
post-placement gap-closing pass (part_002 lines 694-745) is
`fixTimelineGaps = closeGaps ∘ sortClips`.
-/

namespace AutoSlideshow

/-- JavaScript `Math.round`: round half toward positive infinity. -/
def jround (q : ℚ) : ℤ := ⌊q + 1/2⌋

/-- `var totalFrames = Math.round(totalDuration * frameRate);` -/
def totalFramesOf (totalDuration frameRate : ℚ) : ℤ :=
  jround (totalDuration * frameRate)

/-- `var baseFrames = Math.floor(totalFrames / imageCount);` -/
def baseFramesOf (totalDuration : ℚ) (imageCount : ℕ) (frameRate : ℚ) : ℤ :=
  Int.fdiv (totalFramesOf totalDuration frameRate) imageCount

/-- `var extraFrames = totalFrames - (baseFrames * imageCount);` -/
def extraFramesOf (totalDuration : ℚ) (imageCount : ℕ) (frameRate : ℚ) : ℤ :=
  totalFramesOf totalDuration frameRate -
    baseFramesOf totalDuration imageCount frameRate * imageCount

/-- `var minFrames = Math.max(Math.round(frameRate * 0.5), 1);` -/
def minFramesOf (frameRate : ℚ) : ℤ := max (jround (frameRate * (1/2))) 1

/-- `var safeMaxVarFrames = Math.min(maxVarFrames, baseFrames - minFrames);
    if (safeMaxVarFrames < 0) safeMaxVarFrames = 0;` where
    `maxVarFrames = Math.round(maxVariation * frameRate)`. -/
def safeMaxVarFramesOf (totalDuration : ℚ) (imageCount : ℕ)
    (maxVariation frameRate : ℚ) : ℤ :=
  max (min (jround (maxVariation * frameRate))
        (baseFramesOf totalDuration imageCount frameRate - minFramesOf frameRate)) 0

/-- `frameCounts[imageCount - 1] += (totalFrames - newTotal);` -/
def addToLast (d : ℤ) : List ℤ → List ℤ
  | [] => []
  | [x] => [x + d]
  | x :: y :: rest => x :: addToLast d (y :: rest)

/-- The duration allocator `calculateRandomDurations` of
`src/unnamed/part_002` / `src/unnamed/part_003` (frame-count revision).
`rand` is the stream of `Math.random()` results in call order. -/
def calculateRandomDurations (totalDuration : ℚ) (imageCount : ℕ)
    (maxVariation frameRate : ℚ) (rand : ℕ → ℚ) : List ℤ :=
  let totalFrames := totalFramesOf totalDuration frameRate
  let baseFrames := baseFramesOf totalDuration imageCount frameRate
  let extraFrames := extraFramesOf totalDuration imageCount frameRate
  let frameCounts : List ℤ :=
    (List.range imageCount).map fun (i : ℕ) =>
      if (i : ℤ) < extraFrames then baseFrames + 1 else baseFrames
  let safeMaxVarFrames := safeMaxVarFramesOf totalDuration imageCount maxVariation frameRate
  if 0 < safeMaxVarFrames ∧ 1 < imageCount then
    let offsets0 : List ℤ :=
      (List.range imageCount).map fun (r : ℕ) =>
        jround ((rand r * 2 - 1) * (safeMaxVarFrames : ℚ))
    let adjustment : ℤ := jround ((offsets0.sum : ℚ) / (imageCount : ℚ))
    let offsets : List ℤ := offsets0.map fun o => o - adjustment
    let applied : List ℤ := List.zipWith (fun fc off => max (fc + off) 1) frameCounts offsets
    addToLast (totalFrames - applied.sum) applied
  else
    frameCounts

/-- The earlier revision of `calculateRandomDurations` in
`src/jsx/hostscript.jsx` lines 126-187: the same pipeline, but the final
loop converts each frame count back to seconds
(`durations.push(frameCounts[d] / frameRate);`). -/
def calculateRandomDurationsSeconds (totalDuration : ℚ) (imageCount : ℕ)
    (maxVariation frameRate : ℚ) (rand : ℕ → ℚ) : List ℚ :=
  let totalFrames := totalFramesOf totalDuration frameRate
  let baseFrames := baseFramesOf totalDuration imageCount frameRate
  let extraFrames := extraFramesOf totalDuration imageCount frameRate
  let frameCounts : List ℤ :=
    (List.range imageCount).map fun (i : ℕ) =>
      if (i : ℤ) < extraFrames then baseFrames + 1 else baseFrames
  let safeMaxVarFrames := safeMaxVarFramesOf totalDuration imageCount maxVariation frameRate
  let frameCounts2 : List ℤ :=
    if 0 < safeMaxVarFrames ∧ 1 < imageCount then
      let offsets0 : List ℤ :=
        (List.range imageCount).map fun (r : ℕ) =>
          jround ((rand r * 2 - 1) * (safeMaxVarFrames : ℚ))
      let adjustment : ℤ := jround ((offsets0.sum : ℚ) / (imageCount : ℚ))
      let offsets : List ℤ := offsets0.map fun o => o - adjustment
      let applied : List ℤ := List.zipWith (fun fc off => max (fc + off) 1) frameCounts offsets
      addToLast (totalFrames - applied.sum) applied
    else
      frameCounts
  frameCounts2.map fun f => (f : ℚ) / frameRate

/-- The spec's step-3 even/remainder split: `baseFrames` in every slot,
the first `extraFrames` slots incremented by 1 (§4.1 step 3). -/
def evenSplit (totalDuration : ℚ) (imageCount : ℕ) (frameRate : ℚ) : List ℤ :=
  (List.range imageCount).map fun (i : ℕ) =>
    if (i : ℤ) < extraFramesOf totalDuration imageCount frameRate
    then baseFramesOf totalDuration imageCount frameRate + 1
    else baseFramesOf totalDuration imageCount frameRate

/-- The placement loop's integer tick cursor (part_002 lines 648-692):
`currentTicks = 0; ... currentTicks += clipFrames * ticksPerFrame;`. -/
def placementCursor (plan : List ℤ) (ticksPerFrame : ℤ) : ℤ :=
  plan.foldl (fun c f => c + f * ticksPerFrame) 0

/-- A clip observed on the timeline: `clip.start.ticks` / `clip.end.ticks`. -/
structure Clip where
  startTick : ℤ
  endTick : ℤ
deriving DecidableEq, Repr

def defaultClip : Clip := ⟨0, 0⟩

/-- `allTimelineClips.sort(function(a, b) { return a.start.ticks - b.start.ticks; });` -/
def sortClips (clips : List Clip) : List Clip :=
  clips.mergeSort fun a b => decide (a.startTick ≤ b.startTick)

/-- The gap-closing loop body (part_002 lines 722-743): for each adjacent
pair, if `gap = nextStart - thisEnd > 0`, set `thisEnd := nextStart`. -/
def closeGaps : List Clip → List Clip
  | c1 :: c2 :: rest =>
      (if 0 < c2.startTick - c1.endTick then { c1 with endTick := c2.startTick } else c1)
        :: closeGaps (c2 :: rest)
  | l => l

/-- The `gapsFixed` counter of the same loop. -/
def countGapsFixed : List Clip → ℕ
  | c1 :: c2 :: rest =>
      (if 0 < c2.startTick - c1.endTick then 1 else 0) + countGapsFixed (c2 :: rest)
  | _ => 0

/-- The whole post-placement gap-fix pass: collect, sort by start tick,
close positive gaps. -/
def fixTimelineGaps (clips : List Clip) : List Clip :=
  closeGaps (sortClips clips)

/-! ### Evaluation lemmas for `jround` -/

lemma jround_eq {q : ℚ} {n : ℤ} (h1 : (n : ℚ) ≤ q + 1/2) (h2 : q + 1/2 < (n : ℚ) + 1) :
    jround q = n := by
  unfold jround
  rw [Int.floor_eq_iff]
  exact ⟨h1, h2⟩

lemma jround_intCast (n : ℤ) : jround ((n : ℚ)) = n :=
  jround_eq (by linarith) (by linarith)

lemma jround_le {q : ℚ} {n : ℤ} (h : q ≤ (n : ℚ)) : jround q ≤ n := by
  unfold jround
  have : (⌊q + 1/2⌋ : ℤ) < n + 1 := by
    rw [Int.floor_lt]
    push_cast
    linarith
  omega

lemma le_jround {q : ℚ} {n : ℤ} (h : (n : ℚ) ≤ q) : n ≤ jround q := by
  unfold jround
  rw [Int.le_floor]
  linarith

/-! ### Zero-variation behaviour -/

lemma safeMaxVarFramesOf_zero (d fr : ℚ) (n : ℕ) : safeMaxVarFramesOf d n 0 fr = 0 := by
  unfold safeMaxVarFramesOf
  have h0 : jround (0 * fr) = 0 := by
    rw [zero_mul]
    simpa using jround_intCast 0
  rw [h0]
  exact max_eq_right (min_le_left 0 _)

lemma calculateRandomDurations_zero_var (d fr : ℚ) (n : ℕ) (r : ℕ → ℚ) :
    calculateRandomDurations d n 0 fr r = evenSplit d n fr := by
  simp only [calculateRandomDurations]
  rw [if_neg]
  · rfl
  · rw [safeMaxVarFramesOf_zero]
    simp

/-- **C7.** With `maxVariation = 0` the allocator ignores the random source:
any two runs agree, and both return the deterministic even/remainder split. -/
theorem zero_variation_determinism (d fr : ℚ) (n : ℕ) (r₁ r₂ : ℕ → ℚ) :
    calculateRandomDurations d n 0 fr r₁ = calculateRandomDurations d n 0 fr r₂ ∧
    calculateRandomDurations d n 0 fr r₁ = evenSplit d n fr :=
  ⟨(calculateRandomDurations_zero_var d fr n r₁).trans
      (calculateRandomDurations_zero_var d fr n r₂).symm,
    calculateRandomDurations_zero_var d fr n r₁⟩

/-- **C6.** Concrete §8 scenarios with zero variation: `allocate(10,4,0,30)`
returns `[75,75,75,75]`; `allocate(7.05,3,0,30)` computes
`totalFrames = round(211.5) = 212` and returns `[71,71,70]`. -/
theorem concrete_zero_variation_scenarios (rand₁ rand₂ : ℕ → ℚ) :
    calculateRandomDurations 10 4 0 30 rand₁ = [75, 75, 75, 75] ∧
    totalFramesOf (141/20) 30 = 212 ∧
    calculateRandomDurations (141/20) 3 0 30 rand₂ = [71, 71, 70] := by
  have h1 : totalFramesOf 10 30 = 300 := jround_eq (by norm_num) (by norm_num)
  have h2 : totalFramesOf (141/20) 30 = 212 := jround_eq (by norm_num) (by norm_num)
  refine ⟨?_, h2, ?_⟩
  · rw [calculateRandomDurations_zero_var]
    simp only [evenSplit, extraFramesOf, baseFramesOf, h1]
    decide
  · rw [calculateRandomDurations_zero_var]
    simp only [evenSplit, extraFramesOf, baseFramesOf, h2]
    decide

/-- **C9.** With a single image the variation step is skipped and the plan is
`[totalFrames]`, whatever the random draws. -/
theorem single_image_plan (d v fr : ℚ) (rand : ℕ → ℚ)
    (hd : 0 < d) (hv : 0 ≤ v) (hfr : 0 < fr) :
    calculateRandomDurations d 1 v fr rand = [totalFramesOf d fr] := by
  simp only [calculateRandomDurations]
  rw [if_neg (by simp)]
  have hb : baseFramesOf d 1 fr = totalFramesOf d fr := by
    unfold baseFramesOf
    push_cast
    exact Int.fdiv_one _
  have he : extraFramesOf d 1 fr = 0 := by
    unfold extraFramesOf
    rw [hb]
    push_cast
    ring
  rw [show List.range 1 = [0] from rfl]
  simp [he, hb]

/-- Witness for C9 at a concrete input. -/
theorem single_image_plan_witness :
    calculateRandomDurations 10 1 2 30 (fun _ => 0) = [totalFramesOf 10 30] :=
  single_image_plan 10 2 30 (fun _ => 0) (by norm_num) (by norm_num) (by norm_num)

/-- **C10.** The seconds-returning revision (`src/jsx/hostscript.jsx`) is the
frame-count revision followed by element-wise division by the frame rate. -/
theorem revisions_equivalent (d : ℚ) (n : ℕ) (v fr : ℚ) (rand : ℕ → ℚ) :
    calculateRandomDurationsSeconds d n v fr rand =
      (calculateRandomDurations d n v fr rand).map fun f => (f : ℚ) / fr := rfl

/-! ### The exact-sum invariant -/

lemma sum_range_ite (n : ℕ) (b e : ℤ) (h0 : 0 ≤ e) :
    (((List.range n).map fun (i : ℕ) => if (i : ℤ) < e then b + 1 else b).sum) =
      n * b + min e n := by
  induction n with
  | zero => simp [min_eq_right h0]
  | succ k ih =>
    rw [List.range_succ, List.map_append, List.sum_append, ih]
    simp only [List.map_cons, List.map_nil, List.sum_cons, List.sum_nil]
    by_cases hk : (k : ℤ) < e
    · rw [if_pos hk, min_eq_right (le_of_lt hk),
        min_eq_right (show ((k + 1 : ℕ) : ℤ) ≤ e by push_cast; omega)]
      push_cast
      ring
    · rw [if_neg hk, min_eq_left (by omega),
        min_eq_left (show e ≤ ((k + 1 : ℕ) : ℤ) by push_cast; omega)]
      push_cast
      ring

lemma evenSplit_sum (d fr : ℚ) (n : ℕ) (h : 1 ≤ n) :
    (evenSplit d n fr).sum = totalFramesOf d fr := by
  have hn : (0 : ℤ) < n := by exact_mod_cast h
  have hfd : baseFramesOf d n fr = totalFramesOf d fr / (n : ℤ) :=
    Int.fdiv_eq_ediv _ (le_of_lt hn)
  have hmod : totalFramesOf d fr % (n : ℤ) =
      totalFramesOf d fr - (n : ℤ) * (totalFramesOf d fr / (n : ℤ)) :=
    Int.emod_def _ _
  have h0 : 0 ≤ extraFramesOf d n fr := by
    unfold extraFramesOf
    rw [hfd]
    have h := Int.emod_nonneg (totalFramesOf d fr) (ne_of_gt hn)
    rw [hmod] at h
    linarith [mul_comm (totalFramesOf d fr / (n : ℤ)) (n : ℤ)]
  have h1 : extraFramesOf d n fr < n := by
    unfold extraFramesOf
    rw [hfd]
    have h := Int.emod_lt_of_pos (totalFramesOf d fr) hn
    rw [hmod] at h
    linarith [mul_comm (totalFramesOf d fr / (n : ℤ)) (n : ℤ)]
  unfold evenSplit
  rw [sum_range_ite n _ _ h0, min_eq_left (le_of_lt h1)]
  unfold extraFramesOf
  ring

lemma addToLast_sum (d : ℤ) : ∀ l : List ℤ, l ≠ [] → (addToLast d l).sum = l.sum + d
  | [], h => absurd rfl h
  | [x], _ => by simp [addToLast]
  | x :: y :: rest, _ => by
    have ih := addToLast_sum d (y :: rest) (by simp)
    simp only [addToLast, List.sum_cons] at ih ⊢
    omega

lemma calculateRandomDurations_sum (d v fr : ℚ) (n : ℕ) (rand : ℕ → ℚ) (h : 1 ≤ n) :
    (calculateRandomDurations d n v fr rand).sum = totalFramesOf d fr := by
  simp only [calculateRandomDurations]
  split
  · rename_i hcond
    rw [addToLast_sum]
    · ring
    · intro hnil
      have hlen := congrArg List.length hnil
      simp only [List.length_zipWith, List.length_map, List.length_range,
        List.length_nil, min_self] at hlen
      omega
  · exact evenSplit_sum d fr n h

/-- **C1.** For `imageCount ≥ 1` (and the spec's positivity side conditions)
the plan returned by `calculateRandomDurations` sums to
`round(totalDuration * frameRate)` exactly, for every sequence of random
draws. -/
theorem exact_sum_invariant (d v fr : ℚ) (n : ℕ) (rand : ℕ → ℚ)
    (hd : 0 < d) (hn : 1 ≤ n) (hv : 0 ≤ v) (hfr : 0 < fr) :
    (calculateRandomDurations d n v fr rand).sum = totalFramesOf d fr :=
  calculateRandomDurations_sum d v fr n rand hn

/-- Witness for C1 at a concrete input. -/
theorem exact_sum_invariant_witness :
    (calculateRandomDurations 10 4 2 30 (fun _ => 1/2)).sum = totalFramesOf 10 30 :=
  exact_sum_invariant 10 2 30 4 (fun _ => 1/2)
    (by norm_num) (by norm_num) (by norm_num) (by norm_num)

/-! ### Placement continuity -/

lemma placementCursor_eq_sum (plan : List ℤ) (tpf : ℤ) :
    placementCursor plan tpf = plan.sum * tpf := by
  unfold placementCursor
  suffices h : ∀ a : ℤ, plan.foldl (fun c f => c + f * tpf) a = a + plan.sum * tpf by
    simpa using h 0
  induction plan with
  | nil => simp
  | cons x xs ih =>
    intro a
    simp only [List.foldl_cons, List.sum_cons, ih]
    ring

/-- **C5.** The placement loop's integer tick cursor, which starts at 0 and
advances by `plan[i] * ticksPerFrame` only, ends at exactly
`totalFrames * ticksPerFrame` — zero drift. -/
theorem placement_continuity (d v fr : ℚ) (n : ℕ) (rand : ℕ → ℚ) (tpf : ℤ)
    (hn : 1 ≤ n) :
    placementCursor (calculateRandomDurations d n v fr rand) tpf =
      totalFramesOf d fr * tpf := by
  rw [placementCursor_eq_sum, calculateRandomDurations_sum d v fr n rand hn]

/-- Witness for C5 at a concrete input (30 fps, `ticksPerFrame` as in the
host: 254016000000 / 30). -/
theorem placement_continuity_witness :
    placementCursor (calculateRandomDurations 10 4 0 30 (fun _ => 0)) 8467200000 =
      totalFramesOf 10 30 * 8467200000 :=
  placement_continuity 10 0 30 4 (fun _ => 0) 8467200000 (by norm_num)

/-! ### Bounds on the random offsets -/

lemma minFramesOf_ge_one (fr : ℚ) : 1 ≤ minFramesOf fr := le_max_right _ _

lemma safeMaxVarFramesOf_le {d : ℚ} {n : ℕ} {v fr : ℚ}
    (h : 0 < safeMaxVarFramesOf d n v fr) :
    safeMaxVarFramesOf d n v fr ≤ baseFramesOf d n fr - minFramesOf fr := by
  unfold safeMaxVarFramesOf at h ⊢
  rcases le_or_lt (min (jround (v * fr)) (baseFramesOf d n fr - minFramesOf fr)) 0 with hle | hlt
  · rw [max_eq_right hle] at h
    omega
  · rw [max_eq_left (le_of_lt hlt)]
    exact min_le_right _ _

lemma draw_abs_le {S : ℤ} (hS : 0 ≤ S) {r : ℚ} (h0 : 0 ≤ r) (h1 : r < 1) :
    |jround ((r * 2 - 1) * (S : ℚ))| ≤ S := by
  have hSq : (0 : ℚ) ≤ (S : ℚ) := by exact_mod_cast hS
  rw [abs_le]
  constructor
  · apply le_jround
    push_cast
    nlinarith
  · apply jround_le
    nlinarith

lemma sum_abs_le (S : ℤ) : ∀ l : List ℤ, (∀ x ∈ l, |x| ≤ S) → |l.sum| ≤ l.length * S
  | [], _ => by simp
  | x :: xs, h => by
    have ih := sum_abs_le S xs (fun y hy => h y (List.mem_cons_of_mem _ hy))
    have hx := h x (List.mem_cons_self _ _)
    have habs := abs_add x xs.sum
    simp only [List.sum_cons, List.length_cons]
    have hcast : ((xs.length + 1 : ℕ) : ℤ) * S = (xs.length : ℤ) * S + S := by
      push_cast
      ring
    rw [hcast]
    linarith

lemma jround_div_abs_le {T S : ℤ} {n : ℕ} (hn : 0 < n) (hS : 0 ≤ S)
    (h : |T| ≤ (n : ℤ) * S) : |jround ((T : ℚ) / (n : ℚ))| ≤ S := by
  rw [abs_le] at h ⊢
  have hnq : (0 : ℚ) < (n : ℚ) := by exact_mod_cast hn
  have hT1 : (-((n : ℤ) * S) : ℚ) ≤ (T : ℚ) := by exact_mod_cast h.1
  have hT2 : ((T : ℤ) : ℚ) ≤ ((n : ℤ) * S : ℤ) := by exact_mod_cast h.2
  constructor
  · apply le_jround
    rw [le_div_iff₀ hnq]
    push_cast at hT1 ⊢
    nlinarith
  · apply jround_le
    rw [div_le_iff₀ hnq]
    push_cast at hT2 ⊢
    nlinarith

lemma exists_of_mem_zipWith {α : Type} {f : α → α → α} :
    ∀ (l₁ l₂ : List α) (x : α), x ∈ List.zipWith f l₁ l₂ →
      ∃ a b, a ∈ l₁ ∧ b ∈ l₂ ∧ x = f a b
  | a :: t₁, b :: t₂, x, h => by
    rw [List.zipWith_cons_cons] at h
    rcases List.mem_cons.mp h with h | h
    · exact ⟨a, b, List.mem_cons_self _ _, List.mem_cons_self _ _, h⟩
    · obtain ⟨a2, b2, ha, hb, hx⟩ := exists_of_mem_zipWith t₁ t₂ x h
      exact ⟨a2, b2, List.mem_cons_of_mem _ ha, List.mem_cons_of_mem _ hb, hx⟩
  | [], _, x, h => by simp at h
  | _ :: _, [], x, h => by simp at h

lemma mem_evenSplit {d fr : ℚ} {n : ℕ} {x : ℤ} (h : x ∈ evenSplit d n fr) :
    x = baseFramesOf d n fr ∨ x = baseFramesOf d n fr + 1 := by
  unfold evenSplit at h
  obtain ⟨i, hi, hx⟩ := List.mem_map.mp h
  split_ifs at hx
  · right
    omega
  · left
    omega

lemma addToLast_length (d : ℤ) : ∀ l : List ℤ, (addToLast d l).length = l.length
  | [] => rfl
  | [_] => rfl
  | x :: y :: rest => by
    have ih := addToLast_length d (y :: rest)
    simp only [addToLast, List.length_cons] at ih ⊢
    omega

lemma addToLast_dropLast (d : ℤ) : ∀ l : List ℤ, (addToLast d l).dropLast = l.dropLast
  | [] => rfl
  | [_] => rfl
  | x :: y :: rest => by
    have ih := addToLast_dropLast d (y :: rest)
    have hne : addToLast d (y :: rest) ≠ [] := by
      intro hnil
      have hlen := congrArg List.length hnil
      rw [addToLast_length] at hlen
      simp at hlen
    show (x :: addToLast d (y :: rest)).dropLast = (x :: y :: rest).dropLast
    rw [List.dropLast_cons_of_ne_nil hne, List.dropLast_cons_of_ne_nil (by simp), ih]

lemma slot_bound {b S fc o adj x : ℤ} (hfc : fc = b ∨ fc = b + 1)
    (ho : |o| ≤ S) (hadj : |adj| ≤ S) (hb : S + 1 ≤ b)
    (hx : x = max (fc + (o - adj)) 1) : |x - b| ≤ 2 * S + 1 := by
  subst hx
  rw [abs_le] at ho hadj ⊢
  rcases max_cases (fc + (o - adj)) 1 with ⟨h1, h2⟩ | ⟨h1, h2⟩ <;>
    rcases hfc with rfl | rfl <;> rw [h1] <;> omega

/-- **C2 (amended).** With variation enabled and legal draws, every slot
except the residual-absorbing last one stays within
`2 * safeMaxVarFrames + 1` of `baseFrames` (the mean-centering step can
move an offset up to twice the draw bound, plus 1 for an extra-frame
slot). -/
theorem bounded_variation_amended (d v fr : ℚ) (n : ℕ) (rand : ℕ → ℚ)
    (hrand : ∀ i, 0 ≤ rand i ∧ rand i < 1)
    (hS : 0 < safeMaxVarFramesOf d n v fr) (hn : 1 < n) :
    ∀ x ∈ (calculateRandomDurations d n v fr rand).dropLast,
      |x - baseFramesOf d n fr| ≤ 2 * safeMaxVarFramesOf d n v fr + 1 := by
  intro x hx
  simp only [calculateRandomDurations] at hx
  rw [if_pos ⟨hS, hn⟩, addToLast_dropLast] at hx
  have hx2 := List.dropLast_subset _ hx
  obtain ⟨fc, off, hfc, hoff, hxeq⟩ := exists_of_mem_zipWith _ _ _ hx2
  have hfc2 := mem_evenSplit (show fc ∈ evenSplit d n fr from hfc)
  obtain ⟨o, ho0, hoeq⟩ := List.mem_map.mp hoff
  obtain ⟨i, hi, hoeq2⟩ := List.mem_map.mp ho0
  have hoabs : |o| ≤ safeMaxVarFramesOf d n v fr := by
    rw [← hoeq2]
    exact draw_abs_le (le_of_lt hS) (hrand i).1 (hrand i).2
  have hsum : |((List.range n).map fun (r : ℕ) =>
      jround ((rand r * 2 - 1) * ((safeMaxVarFramesOf d n v fr : ℤ) : ℚ))).sum| ≤
      (n : ℤ) * safeMaxVarFramesOf d n v fr := by
    have hb := sum_abs_le (safeMaxVarFramesOf d n v fr)
      ((List.range n).map fun (r : ℕ) =>
        jround ((rand r * 2 - 1) * ((safeMaxVarFramesOf d n v fr : ℤ) : ℚ)))
      (by
        intro y hy
        obtain ⟨j, hj, hyeq⟩ := List.mem_map.mp hy
        rw [← hyeq]
        exact draw_abs_le (le_of_lt hS) (hrand j).1 (hrand j).2)
    simpa using hb
  have hadj : |jround ((((List.range n).map fun (r : ℕ) =>
      jround ((rand r * 2 - 1) * ((safeMaxVarFramesOf d n v fr : ℤ) : ℚ))).sum : ℚ) /
      (n : ℚ))| ≤ safeMaxVarFramesOf d n v fr :=
    jround_div_abs_le (lt_trans zero_lt_one hn) (le_of_lt hS) hsum
  have hb1 : safeMaxVarFramesOf d n v fr + 1 ≤ baseFramesOf d n fr := by
    have h1 := safeMaxVarFramesOf_le hS
    have h2 := minFramesOf_ge_one fr
    omega
  rw [← hoeq] at hxeq
  exact slot_bound hfc2 hoabs hadj hb1 hxeq

/-- **C3 (amended).** Whenever `totalFrames ≥ imageCount`, every element of
the plan except possibly the residual-absorbing last one is `≥ 1`, for
every draw sequence (the last slot can be driven below 1 by adversarial
draws — see the counterexample). -/
theorem floor_invariant_amended (d v fr : ℚ) (n : ℕ) (rand : ℕ → ℚ)
    (hn : 1 ≤ n) (htf : (n : ℤ) ≤ totalFramesOf d fr) :
    ∀ x ∈ (calculateRandomDurations d n v fr rand).dropLast, 1 ≤ x := by
  intro x hx
  simp only [calculateRandomDurations] at hx
  split at hx
  · rw [addToLast_dropLast] at hx
    have hx2 := List.dropLast_subset _ hx
    obtain ⟨fc, off, _, _, hxeq⟩ := exists_of_mem_zipWith _ _ _ hx2
    rw [hxeq]
    exact le_max_right _ 1
  · have hx2 := List.dropLast_subset _ hx
    have hm := mem_evenSplit (show x ∈ evenSplit d n fr from hx2)
    have hnz : (0 : ℤ) < (n : ℤ) := by exact_mod_cast hn
    have hb : 1 ≤ baseFramesOf d n fr := by
      unfold baseFramesOf
      rw [Int.fdiv_eq_ediv _ (le_of_lt hnz)]
      rw [Int.le_ediv_iff_mul_le hnz, one_mul]
      exact htf
    omega

/-! ### Concrete evaluations -/

lemma tf_10_30 : totalFramesOf 10 30 = 300 := by
  unfold totalFramesOf
  exact jround_eq (by norm_num) (by norm_num)

lemma safeS_10_4_1_30 : safeMaxVarFramesOf 10 4 1 30 = 30 := by
  unfold safeMaxVarFramesOf
  rw [show jround ((1 : ℚ) * 30) = 30 from jround_eq (by norm_num) (by norm_num)]
  have hbase : baseFramesOf 10 4 30 = 75 := by
    unfold baseFramesOf
    rw [tf_10_30]
    decide
  rw [hbase]
  have hminf : minFramesOf 30 = 15 := by
    unfold minFramesOf
    rw [show jround ((30 : ℚ) * (1/2)) = 15 from jround_eq (by norm_num) (by norm_num)]
    decide
  rw [hminf]
  decide

/-- The allocator at `(10, 4, 1, 30)` with every draw equal to 1/2: all
offsets are zero and the plan is the even split. -/
lemma eval_half_draws : calculateRandomDurations 10 4 1 30 (fun _ => 1/2) = [75, 75, 75, 75] := by
  have hbase : baseFramesOf 10 4 30 = 75 := by
    unfold baseFramesOf
    rw [tf_10_30]
    decide
  have hextra : extraFramesOf 10 4 30 = 0 := by
    unfold extraFramesOf
    rw [tf_10_30, hbase]
    decide
  have hdraws : ((List.range 4).map fun (r : ℕ) =>
      jround (((fun _ : ℕ => (1/2 : ℚ)) r * 2 - 1) * ((safeMaxVarFramesOf 10 4 1 30 : ℤ) : ℚ))) =
      [0, 0, 0, 0] := by
    rw [safeS_10_4_1_30, show List.range 4 = [0, 1, 2, 3] from rfl]
    simp only [List.map_cons, List.map_nil, List.cons.injEq, and_true]
    refine ⟨?_, ?_, ?_, ?_⟩ <;>
      exact jround_eq (by push_cast; norm_num) (by push_cast; norm_num)
  have hsum : ([0, 0, 0, 0] : List ℤ).sum = 0 := by decide
  have hadj : jround (((0 : ℤ) : ℚ) / ((4 : ℕ) : ℚ)) = 0 :=
    jround_eq (by push_cast; norm_num) (by push_cast; norm_num)
  simp only [calculateRandomDurations]
  rw [hdraws, hsum, hadj, safeS_10_4_1_30, tf_10_30, hextra, hbase]
  decide

/-- Witness for the amended C2 at a concrete input. -/
theorem bounded_variation_amended_witness :
    0 < safeMaxVarFramesOf 10 4 1 30 ∧
    (∀ x ∈ (calculateRandomDurations 10 4 1 30 (fun _ => 1/2)).dropLast,
      |x - baseFramesOf 10 4 30| ≤ 2 * safeMaxVarFramesOf 10 4 1 30 + 1) :=
  ⟨by rw [safeS_10_4_1_30]; decide,
    bounded_variation_amended 10 1 30 4 (fun _ => 1/2)
      (fun _ => ⟨by norm_num, by norm_num⟩)
      (by rw [safeS_10_4_1_30]; decide) (by omega)⟩

/-- Witness for the amended C3 at a concrete input. -/
theorem floor_invariant_amended_witness :
    (4 : ℤ) ≤ totalFramesOf 10 30 ∧
    (∀ x ∈ (calculateRandomDurations 10 4 1 30 (fun _ => 1/2)).dropLast, 1 ≤ x) :=
  ⟨by rw [tf_10_30]; decide,
    floor_invariant_amended 10 1 30 4 (fun _ => 1/2) (by omega)
      (by rw [tf_10_30]; decide)⟩

/-! ### Counterexample to the claimed per-slot variation bound -/

/-- An adversarial but legal draw sequence: the first draw is 0 (mapped to
offset `-safeMaxVarFrames`), later draws are 59/60 (mapped to offset +87). -/
def cexRandVar : ℕ → ℚ := fun i => if i = 0 then 0 else 59/60

lemma tf_20_30 : totalFramesOf 20 30 = 600 := by
  unfold totalFramesOf
  exact jround_eq (by norm_num) (by norm_num)

lemma base_20_3_30 : baseFramesOf 20 3 30 = 200 := by
  unfold baseFramesOf
  rw [tf_20_30]
  decide

lemma safeS_20_3_3_30 : safeMaxVarFramesOf 20 3 3 30 = 90 := by
  unfold safeMaxVarFramesOf
  rw [show jround ((3 : ℚ) * 30) = 90 from jround_eq (by norm_num) (by norm_num),
    base_20_3_30]
  have hminf : minFramesOf 30 = 15 := by
    unfold minFramesOf
    rw [show jround ((30 : ℚ) * (1/2)) = 15 from jround_eq (by norm_num) (by norm_num)]
    decide
  rw [hminf]
  decide

lemma cex_var_eval : calculateRandomDurations 20 3 3 30 cexRandVar = [82, 259, 259] := by
  have hextra : extraFramesOf 20 3 30 = 0 := by
    unfold extraFramesOf
    rw [tf_20_30, base_20_3_30]
    decide
  have hdraws : ((List.range 3).map fun (r : ℕ) =>
      jround ((cexRandVar r * 2 - 1) * ((safeMaxVarFramesOf 20 3 3 30 : ℤ) : ℚ))) =
      [-90, 87, 87] := by
    rw [safeS_20_3_3_30, show List.range 3 = [0, 1, 2] from rfl]
    simp only [List.map_cons, List.map_nil, List.cons.injEq, and_true]
    refine ⟨?_, ?_, ?_⟩ <;>
      exact jround_eq (by norm_num [cexRandVar]) (by norm_num [cexRandVar])
  have hsum : ([-90, 87, 87] : List ℤ).sum = 84 := by decide
  have hadj : jround (((84 : ℤ) : ℚ) / ((3 : ℕ) : ℚ)) = 28 :=
    jround_eq (by push_cast; norm_num) (by push_cast; norm_num)
  simp only [calculateRandomDurations]
  rw [hdraws, hsum, hadj, safeS_20_3_3_30, tf_20_30, hextra, base_20_3_30]
  decide

/-- **C2 (counterexample).** At `(20, 3, 3, 30)` with the legal draw
sequence `cexRandVar`, the first (non-last) slot is 82 while
`baseFrames = 200` and `safeMaxVarFrames = 90`: `|82 - 200| = 118 > 90`,
so the claimed per-slot bound `safeMaxVarFrames` fails. -/
theorem bounded_variation_counterexample :
    (0 ≤ (0 : ℚ) ∧ (0 : ℚ) < 1) ∧ (0 ≤ (59/60 : ℚ) ∧ (59/60 : ℚ) < 1) ∧
    0 < safeMaxVarFramesOf 20 3 3 30 ∧
    calculateRandomDurations 20 3 3 30 cexRandVar = [82, 259, 259] ∧
    (82 : ℤ) ∈ (calculateRandomDurations 20 3 3 30 cexRandVar).dropLast ∧
    ¬ (|(82 : ℤ) - baseFramesOf 20 3 30| ≤ safeMaxVarFramesOf 20 3 3 30) := by
  refine ⟨⟨le_refl 0, by norm_num⟩, ⟨by norm_num, by norm_num⟩, ?_, cex_var_eval, ?_, ?_⟩
  · rw [safeS_20_3_3_30]
    decide
  · rw [cex_var_eval]
    decide
  · rw [base_20_3_30, safeS_20_3_3_30]
    decide

/-! ### Counterexample to the unconditional floor invariant -/

/-- An adversarial but legal draw sequence: eight draws of 33/34 (offset
+80 after rounding) followed by draws of 0 (offset `-safeMaxVarFrames`). -/
def cexRandFloor : ℕ → ℚ := fun i => if i ≤ 7 then 33/34 else 0

lemma tf_cex_floor : totalFramesOf (100/3) 30 = 1000 := by
  unfold totalFramesOf
  exact jround_eq (by norm_num) (by norm_num)

lemma base_cex_floor : baseFramesOf (100/3) 10 30 = 100 := by
  unfold baseFramesOf
  rw [tf_cex_floor]
  decide

lemma cex_floor_eval :
    calculateRandomDurations (100/3) 10 3 30 cexRandFloor =
      [133, 133, 133, 133, 133, 133, 133, 133, 1, -65] := by
  have hextra : extraFramesOf (100/3) 10 30 = 0 := by
    unfold extraFramesOf
    rw [tf_cex_floor, base_cex_floor]
    decide
  have hminf : minFramesOf 30 = 15 := by
    unfold minFramesOf
    rw [show jround ((30 : ℚ) * (1/2)) = 15 from jround_eq (by norm_num) (by norm_num)]
    decide
  have hS : safeMaxVarFramesOf (100/3) 10 3 30 = 85 := by
    unfold safeMaxVarFramesOf
    rw [show jround ((3 : ℚ) * 30) = 90 from jround_eq (by norm_num) (by norm_num),
      base_cex_floor, hminf]
    decide
  have hdraws : ((List.range 10).map fun (r : ℕ) =>
      jround ((cexRandFloor r * 2 - 1) * ((safeMaxVarFramesOf (100/3) 10 3 30 : ℤ) : ℚ))) =
      [80, 80, 80, 80, 80, 80, 80, 80, -85, -85] := by
    rw [hS, show List.range 10 = [0, 1, 2, 3, 4, 5, 6, 7, 8, 9] from rfl]
    simp only [List.map_cons, List.map_nil, List.cons.injEq, and_true]
    refine ⟨?_, ?_, ?_, ?_, ?_, ?_, ?_, ?_, ?_, ?_⟩ <;>
      exact jround_eq (by norm_num [cexRandFloor]) (by norm_num [cexRandFloor])
  have hsum : ([80, 80, 80, 80, 80, 80, 80, 80, -85, -85] : List ℤ).sum = 470 := by decide
  have hadj : jround (((470 : ℤ) : ℚ) / ((10 : ℕ) : ℚ)) = 47 :=
    jround_eq (by push_cast; norm_num) (by push_cast; norm_num)
  simp only [calculateRandomDurations]
  rw [hdraws, hsum, hadj, hS, tf_cex_floor, hextra, base_cex_floor]
  decide

/-- **C3 (counterexample).** At `(100/3, 10, 3, 30)` — `totalFrames = 1000 ≥
10` — the legal draw sequence `cexRandFloor` drives the residual-corrected
last slot to `-65 < 1`: the floor invariant does not hold unconditionally. -/
theorem floor_invariant_counterexample :
    (0 ≤ (33/34 : ℚ) ∧ (33/34 : ℚ) < 1) ∧ (0 ≤ (0 : ℚ) ∧ (0 : ℚ) < 1) ∧
    (10 : ℤ) ≤ totalFramesOf (100/3) 30 ∧
    calculateRandomDurations (100/3) 10 3 30 cexRandFloor =
      [133, 133, 133, 133, 133, 133, 133, 133, 1, -65] ∧
    ((calculateRandomDurations (100/3) 10 3 30 cexRandFloor).all fun x =>
      decide (1 ≤ x)) = false := by
  refine ⟨⟨by norm_num, by norm_num⟩, ⟨le_refl 0, by norm_num⟩, ?_, cex_floor_eval, ?_⟩
  · rw [tf_cex_floor]
    decide
  · rw [cex_floor_eval]
    decide

/-! ### The gap-fix pass -/

lemma closeGaps_map_start : ∀ l : List Clip,
    (closeGaps l).map Clip.startTick = l.map Clip.startTick
  | [] => rfl
  | [_] => rfl
  | c1 :: c2 :: rest => by
    have ih := closeGaps_map_start (c2 :: rest)
    simp only [closeGaps, List.map_cons] at ih ⊢
    rw [ih]
    congr 1
    split <;> rfl

lemma closeGaps_head_start (c : Clip) (rest : List Clip) :
    ∃ c2 t, closeGaps (c :: rest) = c2 :: t ∧ c2.startTick = c.startTick := by
  cases rest with
  | nil => exact ⟨c, [], rfl, rfl⟩
  | cons b r =>
    refine ⟨_, _, rfl, ?_⟩
    split <;> rfl

lemma closeGaps_closed : ∀ l : List Clip,
    List.Chain' (fun a b => b.startTick ≤ a.endTick) (closeGaps l)
  | [] => by simp [closeGaps]
  | [c] => by simp [closeGaps]
  | c1 :: c2 :: rest => by
    have ih := closeGaps_closed (c2 :: rest)
    obtain ⟨c2h, t, heq, hstart⟩ := closeGaps_head_start c2 rest
    simp only [closeGaps, heq]
    rw [heq] at ih
    refine List.Chain'.cons ?_ ih
    rw [hstart]
    split
    · exact le_refl _
    · rename_i h
      omega

lemma closeGaps_of_closed : ∀ l : List Clip,
    List.Chain' (fun a b => b.startTick ≤ a.endTick) l → closeGaps l = l
  | [], _ => rfl
  | [_], _ => rfl
  | c1 :: c2 :: rest, h => by
    rw [List.chain'_cons] at h
    simp only [closeGaps]
    rw [if_neg (by omega), closeGaps_of_closed (c2 :: rest) h.2]

lemma countGapsFixed_eq_zero : ∀ l : List Clip,
    List.Chain' (fun a b => b.startTick ≤ a.endTick) l → countGapsFixed l = 0
  | [], _ => rfl
  | [_], _ => rfl
  | c1 :: c2 :: rest, h => by
    rw [List.chain'_cons] at h
    simp only [countGapsFixed]
    rw [if_neg (by omega), countGapsFixed_eq_zero (c2 :: rest) h.2]

lemma sortClips_sorted (l : List Clip) :
    (sortClips l).Pairwise fun a b => a.startTick ≤ b.startTick := by
  have h := @List.sorted_mergeSort Clip (fun a b => decide (a.startTick ≤ b.startTick))
    (fun a b c hab hbc =>
      decide_eq_true (le_trans (of_decide_eq_true hab) (of_decide_eq_true hbc)))
    (fun a b => by rcases le_total a.startTick b.startTick with h | h <;> simp [h])
    l
  exact h.imp fun hab => of_decide_eq_true hab

lemma sortClips_of_sorted {l : List Clip}
    (h : l.Pairwise fun a b => a.startTick ≤ b.startTick) : sortClips l = l :=
  List.mergeSort_of_sorted (h.imp fun hab => decide_eq_true hab)

lemma pairwise_start_of_map_eq {l₁ l₂ : List Clip}
    (h : l₁.map Clip.startTick = l₂.map Clip.startTick)
    (hp : l₂.Pairwise fun a b => a.startTick ≤ b.startTick) :
    l₁.Pairwise fun a b => a.startTick ≤ b.startTick := by
  have h2 := List.pairwise_map.mpr hp
  rw [← h] at h2
  exact List.pairwise_map.mp h2

/-- **C4.** The gap-fix pass is idempotent: applying it twice equals applying
it once, and on the second application the `gapsFixed` counter stays 0. -/
theorem gap_fix_idempotent (l : List Clip) :
    fixTimelineGaps (fixTimelineGaps l) = fixTimelineGaps l ∧
    countGapsFixed (sortClips (fixTimelineGaps l)) = 0 := by
  have hs := sortClips_sorted l
  have hg : (fixTimelineGaps l).Pairwise fun a b => a.startTick ≤ b.startTick :=
    pairwise_start_of_map_eq (closeGaps_map_start (sortClips l)) hs
  have hsortfix : sortClips (fixTimelineGaps l) = fixTimelineGaps l :=
    sortClips_of_sorted hg
  constructor
  · show closeGaps (sortClips (fixTimelineGaps l)) = fixTimelineGaps l
    rw [hsortfix]
    exact closeGaps_of_closed _ (closeGaps_closed (sortClips l))
  · rw [hsortfix]
    exact countGapsFixed_eq_zero _ (closeGaps_closed (sortClips l))

lemma closeGaps_length : ∀ l : List Clip, (closeGaps l).length = l.length
  | [] => rfl
  | [_] => rfl
  | c1 :: c2 :: rest => by
    have ih := closeGaps_length (c2 :: rest)
    simp only [closeGaps, List.length_cons] at ih ⊢
    omega

lemma closeGaps_getD_start : ∀ (l : List Clip) (i : ℕ),
    ((closeGaps l).getD i defaultClip).startTick = (l.getD i defaultClip).startTick
  | [], _ => rfl
  | [_], _ => rfl
  | c1 :: c2 :: rest, 0 => by
    simp only [closeGaps, List.getD_cons_zero]
    split <;> rfl
  | c1 :: c2 :: rest, (i + 1) => by
    simp only [closeGaps, List.getD_cons_succ]
    exact closeGaps_getD_start (c2 :: rest) i

lemma closeGaps_getD_end_ge : ∀ (l : List Clip) (i : ℕ),
    (l.getD i defaultClip).endTick ≤ ((closeGaps l).getD i defaultClip).endTick
  | [], _ => le_refl _
  | [_], _ => le_refl _
  | c1 :: c2 :: rest, 0 => by
    simp only [closeGaps, List.getD_cons_zero]
    split
    · rename_i h
      show c1.endTick ≤ c2.startTick
      omega
    · exact le_refl _
  | c1 :: c2 :: rest, (i + 1) => by
    simp only [closeGaps, List.getD_cons_succ]
    exact closeGaps_getD_end_ge (c2 :: rest) i

lemma closeGaps_getD_end_eq : ∀ (l : List Clip) (i : ℕ), i + 1 < l.length →
    ((closeGaps l).getD i defaultClip).endTick =
      if 0 < (l.getD (i + 1) defaultClip).startTick - (l.getD i defaultClip).endTick
      then (l.getD (i + 1) defaultClip).startTick
      else (l.getD i defaultClip).endTick
  | [], i, h => by simp at h
  | [_], i, h => by
    simp only [List.length_cons, List.length_nil] at h
    omega
  | c1 :: c2 :: rest, 0, _ => by
    simp only [closeGaps, List.getD_cons_zero, List.getD_cons_succ]
    split <;> rfl
  | c1 :: c2 :: rest, (i + 1), h => by
    simp only [closeGaps, List.getD_cons_succ]
    exact closeGaps_getD_end_eq (c2 :: rest) i (by simpa using h)

lemma closeGaps_getD_of_last : ∀ (l : List Clip) (i : ℕ), ¬ (i + 1 < l.length) →
    (closeGaps l).getD i defaultClip = l.getD i defaultClip
  | [], _, _ => rfl
  | [_], _, _ => rfl
  | c1 :: c2 :: rest, 0, h => by
    exfalso
    simp only [List.length_cons] at h
    omega
  | c1 :: c2 :: rest, (i + 1), h => by
    simp only [closeGaps, List.getD_cons_succ]
    exact closeGaps_getD_of_last (c2 :: rest) i
      (by simp only [List.length_cons] at h ⊢; omega)

/-- **C8.** The gap-closing loop preserves the clip count, never changes a
start tick, never shrinks a clip, sets each non-final clip's end to exactly
the next start when the gap is strictly positive and leaves it unchanged
otherwise, and leaves the final clip entirely unchanged. -/
theorem gap_fix_frame_effect (l : List Clip) :
    (closeGaps l).length = l.length ∧
    (∀ i : ℕ, ((closeGaps l).getD i defaultClip).startTick =
      (l.getD i defaultClip).startTick) ∧
    (∀ i : ℕ, (l.getD i defaultClip).endTick ≤
      ((closeGaps l).getD i defaultClip).endTick) ∧
    (∀ i : ℕ, i + 1 < l.length →
      ((closeGaps l).getD i defaultClip).endTick =
        if 0 < (l.getD (i + 1) defaultClip).startTick - (l.getD i defaultClip).endTick
        then (l.getD (i + 1) defaultClip).startTick
        else (l.getD i defaultClip).endTick) ∧
    (∀ i : ℕ, ¬ (i + 1 < l.length) →
      (closeGaps l).getD i defaultClip = l.getD i defaultClip) :=
  ⟨closeGaps_length l, closeGaps_getD_start l, closeGaps_getD_end_ge l,
    closeGaps_getD_end_eq l, closeGaps_getD_of_last l⟩

/-- Witness for C8 on the spec's §8 scenario: clips `(0,899)` and
`(900,1800)` with a 1-tick gap; the first end is extended to 900, the
second clip is untouched. -/
theorem gap_fix_frame_effect_witness :
    ((closeGaps [Clip.mk 0 899, Clip.mk 900 1800]).getD 0 defaultClip).endTick = 900 ∧
    (closeGaps [Clip.mk 0 899, Clip.mk 900 1800]).getD 1 defaultClip = Clip.mk 900 1800 := by
  have h := gap_fix_frame_effect [Clip.mk 0 899, Clip.mk 900 1800]
  constructor
  · rw [h.2.2.2.1 0 (by decide)]
    decide
  · rw [h.2.2.2.2 1 (by decide)]
    decide

end AutoSlideshow
